import Mathlib

/-!
# Verification of the logo_renamer pixel-analysis core

Shallow embedding of the trim/extend/manipulate engine of the repository:
`src/shared/image_ops.py` (background estimation, trim, extend) and
`src/commands/manipulate/cli.py` (operation parsing, chain execution, batch).

An image is modelled as its dimensions, its native color mode, and a total
pixel function giving, for each coordinate, the RGBA-normalized color of the
pixel (the view PIL's `convert("RGBA")` produces; reads outside the bounds are
junk values that the embedded code never relies on).  Channels are `Nat`s;
real images keep them below 256 and no operation here overflows.
-/

/-- A 4-channel RGBA color, the normalized comparison form used by the code. -/
@[ext]
structure Color where
  r : Nat
  g : Nat
  b : Nat
  a : Nat
deriving DecidableEq, Repr

/-- The PIL color modes the program distinguishes: `RGBA`, `RGB`,
single-channel `L` and palette `P`. -/
inductive Mode where
  | RGBA
  | RGB
  | L
  | P
deriving DecidableEq, Repr

/-- An in-memory image: dimensions, native mode, and the RGBA-normalized
pixel grid. -/
structure Image where
  width : Nat
  height : Nat
  mode : Mode
  px : Nat → Nat → Color

/-- `img.convert("RGBA")`: same pixels in normalized form, mode tag RGBA. -/
def Image.convertRGBA (img : Image) : Image :=
  { img with mode := Mode.RGBA }

/-- `img.convert("RGB")`: drops the alpha channel (re-normalizing an RGB
image yields alpha 255). -/
def Image.convertRGB (img : Image) : Image :=
  { img with mode := Mode.RGB, px := fun x y => { img.px x y with a := 255 } }

/-- `Image.new("RGBA", (w, h), color)`: a uniform RGBA image. -/
def Image.newRGBA (w h : Nat) (c : Color) : Image :=
  { width := w, height := h, mode := Mode.RGBA, px := fun _ _ => c }

/-- `img.crop((l, u, r, b))`: the half-open window `[l,r) × [u,b)`, keeping
the native mode.  (Pillow's rejection of inverted boxes is not modelled; the
trim code only produces inverted boxes for negative margins, which no claim
exercises.) -/
def Image.crop (img : Image) (l u r b : Nat) : Image :=
  { width := r - l, height := b - u, mode := img.mode,
    px := fun x y => img.px (l + x) (u + y) }

/-- Absolute difference of two channel values. -/
def chDist (a b : Nat) : Nat := max a b - min a b

/-- Per-channel absolute difference of two colors (one pixel of
`ImageChops.difference`). -/
def Color.absDiff (c d : Color) : Color :=
  ⟨chDist c.r d.r, chDist c.g d.g, chDist c.b d.b, chDist c.a d.a⟩

/-- `ImageChops.difference(a, b)`: channel-wise absolute difference, same
size and mode as the first operand (PIL requires the operands to agree). -/
def difference (a b : Image) : Image :=
  { width := a.width, height := a.height, mode := a.mode,
    px := fun x y => (a.px x y).absDiff (b.px x y) }

/-! ## Bounding box of the non-zero region (`Image.getbbox`)

Pillow's `getbbox()` (with its default `alpha_only=True`, the behavior the
source code's own comments rely on) considers, per pixel:
* RGBA images: only the alpha band;
* RGB images: the three color bands;
* other modes: the stored band(s), represented here by the normalized
  channels.
-/

/-- Whether a pixel of a given mode counts as non-zero for `getbbox`. -/
def bboxCriterion (m : Mode) (c : Color) : Bool :=
  match m with
  | Mode.RGBA => c.a != 0
  | Mode.RGB => c.r != 0 || c.g != 0 || c.b != 0
  | _ => c.r != 0 || c.g != 0 || c.b != 0 || c.a != 0

/-- The coordinates inside `[0,w) × [0,h)` satisfying a pixel criterion. -/
def diffSet (w h : Nat) (p : Nat → Nat → Bool) : Finset (Nat × Nat) :=
  (Finset.range w ×ˢ Finset.range h).filter (fun c => p c.1 c.2)

/-- Generic bounding box: `none` when no pixel satisfies the criterion,
otherwise the smallest half-open box `(left, upper, right, lower)` enclosing
all satisfying pixels. -/
def getbboxGen (w h : Nat) (p : Nat → Nat → Bool) : Option (Nat × Nat × Nat × Nat) :=
  if hs : (diffSet w h p).Nonempty then
    some (((diffSet w h p).image Prod.fst).min' (hs.image _),
          ((diffSet w h p).image Prod.snd).min' (hs.image _),
          ((diffSet w h p).image Prod.fst).max' (hs.image _) + 1,
          ((diffSet w h p).image Prod.snd).max' (hs.image _) + 1)
  else none

/-- `img.getbbox()`. -/
def Image.getbbox (img : Image) : Option (Nat × Nat × Nat × Nat) :=
  getbboxGen img.width img.height (fun x y => bboxCriterion img.mode (img.px x y))

/-! ## `Counter(...).most_common(1)[0]`

`collections.Counter` keeps keys in first-occurrence order and
`most_common` sorts stably by decreasing count, so `most_common(1)[0]` is
the earliest-occurring element of maximal count. -/

/-- `bestOf l cand`: among the candidates `cand`, the earliest one of maximal
count in `l`, paired with that count. -/
def bestOf (l : List Color) : List Color → Option (Color × Nat)
  | [] => none
  | c :: rest =>
    match bestOf l rest with
    | none => some (c, l.count c)
    | some (b, n) => if l.count c ≥ n then some (c, l.count c) else some (b, n)

/-- `Counter(l).most_common(1)[0]`: earliest element of `l` with maximal
count (and the count); `none` for an empty list (where Python raises). -/
def mostCommon1 (l : List Color) : Option (Color × Nat) := bestOf l l

instance {ε α : Type} [DecidableEq ε] [DecidableEq α] : DecidableEq (Except ε α) := fun x y =>
  match x, y with
  | .ok a, .ok b => if h : a = b then .isTrue (by rw [h]) else .isFalse (by simp [h])
  | .error a, .error b => if h : a = b then .isTrue (by rw [h]) else .isFalse (by simp [h])
  | .ok _, .error _ => .isFalse (by simp)
  | .error _, .ok _ => .isFalse (by simp)

/-! ## Background color estimation -/

/-- Errors of the core: `validation` is `ImageValidationError`; `emptyImage`
stands for the `IndexError` Python raises when sampling an empty image. -/
inductive ChainErr where
  | validation
  | emptyImage
deriving DecidableEq, Repr

/-- The four corner pixels sampled by corner-mode estimation, in the order
the source lists them (after RGBA normalization). -/
def cornerPixels (img : Image) : List Color :=
  let calcImg := img.convertRGBA
  [calcImg.px 0 0, calcImg.px (img.width - 1) 0,
   calcImg.px 0 (img.height - 1), calcImg.px (img.width - 1) (img.height - 1)]

/-- `get_corner_background_color`: most common corner color; fails with
`ImageValidationError` when fewer than 3 of the 4 corners share it. -/
def get_corner_background_color (img : Image) : Except ChainErr Color :=
  match mostCommon1 (cornerPixels img) with
  | some (c, n) => if n < 3 then .error ChainErr.validation else .ok c
  | none => .error ChainErr.validation

/-- The coordinates sampled by edge-mode estimation, in the source's order:
top and bottom row for every `x`, then both end columns for
`y ∈ range(1, height - 1)`. -/
def edgeCoords (w h : Nat) : List (Nat × Nat) :=
  ((List.range w).flatMap fun x => [(x, 0), (x, h - 1)]) ++
  ((List.range' 1 (h - 2)).flatMap fun y => [(0, y), (w - 1, y)])

/-- The colors collected by edge-mode estimation (RGBA-normalized). -/
def edgeColors (img : Image) : List Color :=
  (edgeCoords img.width img.height).map fun q => img.convertRGBA.px q.1 q.2

/-- `get_edge_background_color`: most common color along the border lines;
`none` when there is nothing to sample (empty image, where Python raises). -/
def get_edge_background_color (img : Image) : Option Color :=
  (mostCommon1 (edgeColors img)).map Prod.fst

/-! ## Trim -/

/-- The bounding box the trim code uses: `getbbox` of the RGBA difference
image, falling back to `getbbox` of its RGB conversion when the first pass
(which only sees the alpha band) reports no difference. -/
def trimBBox (img : Image) (bg : Color) : Option (Nat × Nat × Nat × Nat) :=
  let calcImg := img.convertRGBA
  let diff := difference calcImg (Image.newRGBA img.width img.height bg)
  match diff.getbbox with
  | some b => some b
  | none => diff.convertRGB.getbbox

/-- `trim_image_obj(img, margin)`: estimate the background from the corners,
compute the difference bounding box, expand it by the margin clamped to the
image bounds, and crop the original image unless the expanded box is empty
or covers the whole image. -/
def trim_image_obj (img : Image) (margin : Int) : Except ChainErr (Image × Bool) :=
  match get_corner_background_color img.convertRGBA with
  | .error e => .error e
  | .ok bg =>
    let w := img.width
    let h := img.height
    match trimBBox img bg with
    | none => .ok (img, false)
    | some (left0, upper0, right0, lower0) =>
      let left : Int := max 0 (left0 - margin)
      let upper : Int := max 0 (upper0 - margin)
      let right : Int := min w (right0 + margin)
      let lower : Int := min h (lower0 + margin)
      if (left, upper, right, lower) = ((0 : Int), (0 : Int), (w : Int), (h : Int)) then
        .ok (img, false)
      else
        .ok (img.crop left.toNat upper.toNat right.toNat lower.toNat, true)

/-! ## Extend -/

/-- Pillow's `MULDIV255` rounding helper used when pasting with a mask. -/
def muldiv255 (a b : Nat) : Nat :=
  ((a * b + 128) + (a * b + 128) / 256) / 256

/-- One channel of `paste` with a mask value `m`: destination weighted by
`255 - m`, source by `m`. -/
def blendChannel (d s m : Nat) : Nat := muldiv255 d (255 - m) + muldiv255 s m

/-- One pixel of `paste(src, ..., mask)` where the mask is the source's alpha
band: every channel is blended. -/
def blendColor (d s : Color) (m : Nat) : Color :=
  ⟨blendChannel d.r s.r m, blendChannel d.g s.g m,
   blendChannel d.b s.b m, blendChannel d.a s.a m⟩

/-- The `new_img` of `extend_image_obj` after the paste: a canvas of three
times the size filled with the background color, with the original pasted at
offset `(width, height)` — blended through its own alpha band when the
original is RGBA, copied directly otherwise. -/
def extendPasted (img : Image) (bg : Color) : Image :=
  { width := img.width * 3, height := img.height * 3, mode := Mode.RGBA,
    px := fun x y =>
      if img.width ≤ x ∧ x < img.width + img.width ∧
          img.height ≤ y ∧ y < img.height + img.height then
        let s := img.px (x - img.width) (y - img.height)
        if img.mode = Mode.RGBA then blendColor bg s s.a else s
      else bg }

/-- `extend_image_obj(img)`: triple the canvas in both directions, fill it
with the edge-mode background color, paste the original in the center (using
its alpha band as mask when it is RGBA), and convert back to RGB when the
original was RGB. -/
def extend_image_obj (img : Image) : Option Image :=
  match get_edge_background_color img with
  | none => none
  | some bg =>
    let pasted := extendPasted img bg
    some (if img.mode = Mode.RGB then pasted.convertRGB else pasted)

/-! ## Operation parsing (`parse_operations` in `commands/manipulate/cli.py`)

String manipulation is modelled on `List Char` so that everything reduces in
the kernel; the semantics follow Python's `str.split(",")`, `str.strip()`,
`str.lower()` and `int()`. -/

/-- The characters Python's `str.strip()` removes by default. -/
def isPySpace (c : Char) : Bool :=
  c = ' ' || c = '\t' || c = '\n' || c = '\x0d' || c = '\x0b' || c = '\x0c'

/-- `s.strip()`: drop leading and trailing whitespace. -/
def stripChars (l : List Char) : List Char :=
  ((l.dropWhile isPySpace).reverse.dropWhile isPySpace).reverse

/-- `s.split(",")`: split at every comma, keeping empty parts (the empty
string yields one empty part). -/
def splitComma : List Char → List (List Char)
  | [] => [[]]
  | c :: rest =>
    if c = ',' then [] :: splitComma rest
    else
      match splitComma rest with
      | h :: t => (c :: h) :: t
      | [] => [[c]]

/-- `s.lower()` (ASCII, all the program ever feeds it). -/
def lowerChars (l : List Char) : List Char := l.map Char.toLower

/-- The normalized form of one comma-separated part: stripped, lower-cased. -/
def normToken (l : List Char) : List Char := lowerChars (stripChars l)

/-- The digit run of a Python integer literal: one digit, then digits with
single underscores allowed between digits. -/
def pyDigitsAux (acc : Nat) : List Char → Option Nat
  | [] => some acc
  | c :: rest =>
    if c.isDigit then pyDigitsAux (acc * 10 + (c.toNat - 48)) rest
    else if c = '_' then
      match rest with
      | d :: rest2 =>
        if d.isDigit then pyDigitsAux (acc * 10 + (d.toNat - 48)) rest2 else none
      | [] => none
    else none

/-- A nonempty digit run (no leading underscore). -/
def pyDigits : List Char → Option Nat
  | c :: rest => if c.isDigit then pyDigitsAux (c.toNat - 48) rest else none
  | [] => none

/-- Python's `int(s)` on a decimal string: surrounding whitespace, an
optional sign, then digits with single underscores between digits. -/
def pyInt (l : List Char) : Option Int :=
  match stripChars l with
  | '+' :: rest => (pyDigits rest).map Int.ofNat
  | '-' :: rest => (pyDigits rest).map fun n => -(n : Int)
  | t => (pyDigits t).map Int.ofNat

/-- One step of an operation chain: extend, or trim with an integer margin
(Python's `int` accepts zero and negative values, so the margin is `Int`). -/
inductive Op where
  | e
  | t (margin : Int)
deriving DecidableEq, Repr

/-- The loop body of `parse_operations` over the comma-separated parts
(`normToken p` is the `part.strip().lower()` of the source): empty tokens
are skipped, `e` extends, a token starting with `t` trims with `int` of the
remainder (default 20 for a bare `t`), anything else is an error naming the
token. -/
def parseParts : List (List Char) → Except String (List Op)
  | [] => .ok []
  | p :: rest =>
    if normToken p = [] then parseParts rest
    else if normToken p = ['e'] then (parseParts rest).map (Op.e :: ·)
    else if (normToken p).head? = some 't' then
      match (if (normToken p).length > 1 then pyInt ((normToken p).drop 1) else some 20) with
      | some m => (parseParts rest).map (Op.t m :: ·)
      | none => .error ("Invalid trim margin: " ++ String.mk ((normToken p).drop 1))
    else .error ("Unknown operation: " ++ String.mk (normToken p))

/-- `parse_operations(ops_str)`. -/
def parse_operations (s : String) : Except String (List Op) :=
  parseParts (splitComma s.data)

/-! ## Chain execution (`_process_single_file` in `commands/manipulate/cli.py`) -/

/-- One iteration of the operation loop: extend always reports a change,
trim reports whether it cropped. -/
def applyStep : Op → Image → Except ChainErr (Image × Bool)
  | Op.e, img =>
    match extend_image_obj img with
    | some i => .ok (i, true)
    | none => .error ChainErr.emptyImage
  | Op.t mg, img => trim_image_obj img mg

/-- The operation loop: each step receives the previous step's output and
`modified` accumulates; a failing step aborts the rest. -/
def runOps : List Op → Image → Bool → Except ChainErr (Image × Bool)
  | [], img, m => .ok (img, m)
  | op :: rest, img, m =>
    match applyStep op img with
    | .ok (i, f) => runOps rest i (m || f)
    | .error e => .error e

/-- `_images_are_identical`: same size, same mode, and `getbbox` of the
difference image (taken in the images' native mode) reports nothing. -/
def _images_are_identical (a b : Image) : Bool :=
  if a.width = b.width ∧ a.height = b.height ∧ a.mode = b.mode then
    (difference a b).getbbox.isNone
  else false

/-- Outcome of processing one file. -/
inductive FileStatus where
  | processed
  | noChange
  | skipped
deriving DecidableEq, Repr

/-- `_process_single_file`: a file is either unreadable (an
`ImageValidationError` from `load_and_validate_image`) or an image.  Runs
the chain; any exception skips the file; with `skip_same`, a final image
identical to the source suppresses the modified flag.  Returns the status
and the image written (if any); the `replaceFlag` only picks the target
path, which is outside the model. -/
def _process_single_file (file : Except ChainErr Image) (ops : List Op)
    (_replaceFlag : Bool) (skipSame : Bool) : FileStatus × Option Image :=
  match file with
  | .error _ => (FileStatus.skipped, none)
  | .ok original =>
    match runOps ops original false with
    | .error _ => (FileStatus.skipped, none)
    | .ok (finalImg, modified) =>
      let modified :=
        if modified && skipSame && _images_are_identical original finalImg then false
        else modified
      if modified then (FileStatus.processed, some finalImg)
      else (FileStatus.noChange, none)

/-- The batch loop of `manipulate`: every file is processed in order and the
`(processed, no_change, skipped)` counters are accumulated. -/
def runBatch (files : List (Except ChainErr Image)) (ops : List Op)
    (replaceFlag skipSame : Bool) : Nat × Nat × Nat :=
  files.foldl
    (fun acc f =>
      match (_process_single_file f ops replaceFlag skipSame).1 with
      | FileStatus.processed => (acc.1 + 1, acc.2.1, acc.2.2)
      | FileStatus.noChange => (acc.1, acc.2.1 + 1, acc.2.2)
      | FileStatus.skipped => (acc.1, acc.2.1, acc.2.2 + 1))
    (0, 0, 0)


/-! ## Concrete images used to instantiate the theorems -/

def white : Color := ⟨255, 255, 255, 255⟩

def red : Color := ⟨255, 0, 0, 255⟩

/-- A transparent red pixel. -/
def clearRed : Color := ⟨255, 0, 0, 0⟩

/-- 100×100 opaque white image. -/
def imgAllWhite : Image :=
  { width := 100, height := 100, mode := Mode.RGBA, px := fun _ _ => white }

/-- 100×100 white image with one red corner (exactly 3 matching corners). -/
def img3Corners : Image :=
  { width := 100, height := 100, mode := Mode.RGBA,
    px := fun x y => if x = 99 ∧ y = 99 then red else white }

/-- 100×100 image with two red and two white corners. -/
def img2Corners : Image :=
  { width := 100, height := 100, mode := Mode.RGBA,
    px := fun x y => if (x = 99 ∧ y = 0) ∨ (x = 0 ∧ y = 99) then red else white }


/-- The difference image the trim code builds, named for the lemmas below
(definitionally the `diff` local of `trim_image_obj`). -/
def trimDiff (img : Image) (bg : Color) : Image :=
  difference img.convertRGBA (Image.newRGBA img.width img.height bg)

/-- 3×3 white image with a red center pixel. -/
def imgRedCenter : Image :=
  { width := 3, height := 3, mode := Mode.RGBA,
    px := fun x y => if x = 1 ∧ y = 1 then red else white }

/-- 2×2 uniformly white palette-mode image. -/
def imgWhite2 : Image :=
  { width := 2, height := 2, mode := Mode.P, px := fun _ _ => white }



/-- Specification-side classification of one normalized token, following the
words of the (amended) claim: `none` marks an invalid token, `some none` an
empty token to skip, `some (some op)` a parsed operation. -/
def tokenClass (t : List Char) : Option (Option Op) :=
  if t = [] then some none
  else if t = ['e'] then some (some Op.e)
  else if t.head? = some 't' then
    if t.length > 1 then (pyInt (t.drop 1)).map fun m => some (Op.t m)
    else some (some (Op.t 20))
  else none

/-- The error message an invalid token produces. -/
def errMsg (p : List Char) : String :=
  if (normToken p).head? = some 't' then
    "Invalid trim margin: " ++ String.mk ((normToken p).drop 1)
  else
    "Unknown operation: " ++ String.mk (normToken p)

/-- Specification-side parser driven by `tokenClass`. -/
def parseTok : List (List Char) → Except String (List Op)
  | [] => .ok []
  | p :: rest =>
    match tokenClass (normToken p) with
    | none => .error (errMsg p)
    | some none => parseTok rest
    | some (some op) => (parseTok rest).map (op :: ·)


/-- Claim-side pixel-identity: same dimensions, same color mode, zero
differing pixels. -/
def pixelIdentical (a b : Image) : Prop :=
  a.width = b.width ∧ a.height = b.height ∧ a.mode = b.mode ∧
    ∀ x, x < a.width → ∀ y, y < a.height → a.px x y = b.px x y

instance (a b : Image) : Decidable (pixelIdentical a b) := by
  unfold pixelIdentical
  infer_instance

/-- Claim-side big-step relation for the executor: steps applied strictly
left-to-right, each receiving the previous step's output, recording the
per-step modified flags. -/
inductive ChainExec : Image → List Op → Image → List Bool → Prop where
  | nil (img : Image) : ChainExec img [] img []
  | extendStep {img i fin : Image} {ops : List Op} {flags : List Bool} :
      extend_image_obj img = some i → ChainExec i ops fin flags →
      ChainExec img (Op.e :: ops) fin (true :: flags)
  | trimStep {img i fin : Image} {mg : Int} {f : Bool} {ops : List Op}
      {flags : List Bool} :
      trim_image_obj img mg = .ok (i, f) → ChainExec i ops fin flags →
      ChainExec img (Op.t mg :: ops) fin (f :: flags)

/-- 1×1 gray image in single-channel mode `L`. -/
def imgGray : Image :=
  { width := 1, height := 1, mode := Mode.L, px := fun _ _ => ⟨128, 128, 128, 255⟩ }

/-- 1×1 white image in mode `RGB`. -/
def imgRGB : Image :=
  { width := 1, height := 1, mode := Mode.RGB, px := fun _ _ => white }

/-- The extend result for `imgRGB` (named so the witness can state it). -/
def extRGB : Image := (extend_image_obj imgRGB).getD imgRGB

/-- 3×3 RGBA image: opaque white border, fully transparent red center. -/
def imgClearCenter : Image :=
  { width := 3, height := 3, mode := Mode.RGBA,
    px := fun x y => if x = 1 ∧ y = 1 then clearRed else white }

/-- The final image of the chain `e,t1` on `imgRedCenter` (named so the
witness can state it). -/
def chainFin : Image :=
  ((runOps [Op.e, Op.t 1] imgRedCenter false).toOption.map Prod.fst).getD imgRedCenter


/-- 1×1 white RGBA image. -/
def imgTiny : Image :=
  { width := 1, height := 1, mode := Mode.RGBA, px := fun _ _ => white }


/-- 5×5 white image with a single red pixel in the middle. -/
def imgRed5 : Image :=
  { width := 5, height := 5, mode := Mode.RGBA,
    px := fun x y => if x = 2 ∧ y = 2 then red else white }

/-- The result of trimming `imgRed5` with margin 1. -/
def imgRed5Trimmed : Image :=
  ((trim_image_obj imgRed5 1).toOption.map Prod.fst).getD imgRed5

/-- 4×4 white image with red pixels at (1,1) and (2,2). -/
def imgDiag : Image :=
  { width := 4, height := 4, mode := Mode.RGBA,
    px := fun x y => if (x = 1 ∧ y = 1) ∨ (x = 2 ∧ y = 2) then red else white }

/-- The result of trimming `imgDiag` with margin 0. -/
def imgDiagTrimmed : Image :=
  ((trim_image_obj imgDiag 0).toOption.map Prod.fst).getD imgDiag

/-- 5×5 white image with a red ring around a white center. -/
def imgRing : Image :=
  { width := 5, height := 5, mode := Mode.RGBA,
    px := fun x y =>
      if (1 ≤ x ∧ x ≤ 3 ∧ 1 ≤ y ∧ y ≤ 3) ∧ ¬ (x = 2 ∧ y = 2) then red else white }

/-- The result of trimming `imgRing` with margin 0. -/
def imgRingTrimmed : Image :=
  ((trim_image_obj imgRing 0).toOption.map Prod.fst).getD imgRing

/-! # Theorems -/

theorem mem_diffSet {w h : Nat} {p : Nat → Nat → Bool} {x y : Nat} :
    (x, y) ∈ diffSet w h p ↔ x < w ∧ y < h ∧ p x y = true := by
  simp [diffSet, Finset.mem_filter, Finset.mem_product, Finset.mem_range, and_assoc]

theorem getbboxGen_eq_none_iff {w h : Nat} {p : Nat → Nat → Bool} :
    getbboxGen w h p = none ↔ ∀ x, x < w → ∀ y, y < h → p x y = false := by
  unfold getbboxGen
  split
  · next hs =>
    simp only [reduceCtorEq, false_iff]
    intro hall
    obtain ⟨⟨x, y⟩, hm⟩ := hs
    rw [mem_diffSet] at hm
    have := hall x hm.1 y hm.2.1
    rw [hm.2.2] at this
    exact Bool.noConfusion this
  · next hs =>
    simp only [true_iff]
    intro x hx y hy
    by_contra hne
    exact hs ⟨(x, y), mem_diffSet.mpr ⟨hx, hy, Bool.not_eq_false _ |>.mp hne⟩⟩

/-- When some pixel satisfies the criterion, `getbboxGen` returns the box of
component-wise minima and maxima. -/
theorem getbboxGen_of_nonempty {w h : Nat} {p : Nat → Nat → Bool}
    (hs : (diffSet w h p).Nonempty) :
    getbboxGen w h p =
      some (((diffSet w h p).image Prod.fst).min' (hs.image _),
            ((diffSet w h p).image Prod.snd).min' (hs.image _),
            ((diffSet w h p).image Prod.fst).max' (hs.image _) + 1,
            ((diffSet w h p).image Prod.snd).max' (hs.image _) + 1) := by
  unfold getbboxGen
  rw [dif_pos hs]

/-- Every satisfying pixel lies inside the returned box, and each of the four
box edges is attained by a satisfying pixel. -/
theorem getbboxGen_spec {w h : Nat} {p : Nat → Nat → Bool} {L U R B : Nat}
    (hbox : getbboxGen w h p = some (L, U, R, B)) :
    (∀ x y, (x, y) ∈ diffSet w h p → L ≤ x ∧ x < R ∧ U ≤ y ∧ y < B) ∧
      (∃ y, (L, y) ∈ diffSet w h p) ∧ (∃ y, (R - 1, y) ∈ diffSet w h p) ∧
      (∃ x, (x, U) ∈ diffSet w h p) ∧ (∃ x, (x, B - 1) ∈ diffSet w h p) ∧
      1 ≤ R ∧ 1 ≤ B := by
  have hs : (diffSet w h p).Nonempty := by
    by_contra hne
    unfold getbboxGen at hbox
    rw [dif_neg hne] at hbox
    exact absurd hbox (by simp)
  rw [getbboxGen_of_nonempty hs] at hbox
  have h := Option.some.inj hbox
  simp only [Prod.mk.injEq] at h
  obtain ⟨hL, hU, hR, hB⟩ := h
  subst hL; subst hU; subst hR; subst hB
  refine ⟨?_, ?_, ?_, ?_, ?_, Nat.le_add_left 1 _, Nat.le_add_left 1 _⟩
  · intro x y hm
    refine ⟨Finset.min'_le _ _ (Finset.mem_image_of_mem Prod.fst hm),
      Nat.lt_succ_of_le (Finset.le_max' _ _ (Finset.mem_image_of_mem Prod.fst hm)),
      Finset.min'_le _ _ (Finset.mem_image_of_mem Prod.snd hm),
      Nat.lt_succ_of_le (Finset.le_max' _ _ (Finset.mem_image_of_mem Prod.snd hm))⟩
  · obtain ⟨⟨x, y⟩, hm, hx⟩ := Finset.mem_image.mp (Finset.min'_mem _ (hs.image Prod.fst))
    exact ⟨y, by rwa [← hx]⟩
  · rw [Nat.add_sub_cancel]
    obtain ⟨⟨x, y⟩, hm, hx⟩ := Finset.mem_image.mp (Finset.max'_mem _ (hs.image Prod.fst))
    exact ⟨y, by rwa [← hx]⟩
  · obtain ⟨⟨x, y⟩, hm, hy⟩ := Finset.mem_image.mp (Finset.min'_mem _ (hs.image Prod.snd))
    exact ⟨x, by rwa [← hy]⟩
  · rw [Nat.add_sub_cancel]
    obtain ⟨⟨x, y⟩, hm, hy⟩ := Finset.mem_image.mp (Finset.max'_mem _ (hs.image Prod.snd))
    exact ⟨x, by rwa [← hy]⟩

theorem count_add_count_le_length {α : Type} [DecidableEq α] (l : List α) {b c : α}
    (h : b ≠ c) : l.count b + l.count c ≤ l.length := by
  induction l with
  | nil => simp
  | cons a t ih =>
    simp only [List.count_cons, List.length_cons, beq_iff_eq]
    by_cases h1 : a = b
    · have h2 : ¬ a = c := fun h2 => h (h1.symm.trans h2)
      simp only [if_pos h1, if_neg h2]
      omega
    · simp only [if_neg h1]
      split_ifs <;> omega

theorem mostCommon1_spec {l : List Color} (h : l ≠ []) :
    ∃ b, mostCommon1 l = some (b, l.count b) ∧ b ∈ l ∧
      ∀ c ∈ l, l.count c ≤ l.count b := by
  suffices hgen : ∀ cand : List Color, cand ≠ [] →
      ∃ b, bestOf l cand = some (b, l.count b) ∧ b ∈ cand ∧
        ∀ c ∈ cand, l.count c ≤ l.count b from hgen l h
  intro cand
  induction cand with
  | nil => intro hc; exact absurd rfl hc
  | cons c rest ih =>
    intro _
    by_cases hr : rest = []
    · subst hr
      refine ⟨c, by simp [bestOf], by simp, ?_⟩
      intro d hd
      rw [List.mem_singleton.mp hd]
    · obtain ⟨b, hb, hmem, hmax⟩ := ih hr
      unfold bestOf
      rw [hb]
      dsimp only
      by_cases hge : l.count c ≥ l.count b
      · rw [if_pos hge]
        refine ⟨c, rfl, List.mem_cons_self c rest, ?_⟩
        intro d hd
        rcases List.mem_cons.mp hd with hdc | hdr
        · rw [hdc]
        · exact le_trans (hmax d hdr) hge
      · rw [if_neg hge]
        refine ⟨b, rfl, List.mem_cons_of_mem _ hmem, ?_⟩
        intro d hd
        rcases List.mem_cons.mp hd with hdc | hdr
        · rw [hdc]; omega
        · exact hmax d hdr

/-- C3: corner-mode background estimation samples exactly the four corner
pixels (the list `cornerPixels`, taken after RGBA normalization).  It
returns a color shared by at least 3 of the 4 corners whenever one exists
(so 4 or exactly 3 matching corners succeed, with the majority color), and
it raises `ValidationError` if and only if no color is shared by at least 3
corners. -/
theorem corner_consensus (img : Image) :
    (∀ c, 3 ≤ (cornerPixels img).count c →
      get_corner_background_color img = .ok c) ∧
    (∀ c, get_corner_background_color img = .ok c →
      3 ≤ (cornerPixels img).count c) ∧
    ((∀ c ∈ cornerPixels img, (cornerPixels img).count c < 3) →
      get_corner_background_color img = .error ChainErr.validation) := by
  have hne : cornerPixels img ≠ [] := by simp [cornerPixels]
  obtain ⟨b, hb, hbmem, hbmax⟩ := mostCommon1_spec hne
  have hlen : (cornerPixels img).length = 4 := by simp [cornerPixels]
  refine ⟨?_, ?_, ?_⟩
  · intro c hc
    have hcb : c = b := by
      by_contra hcb
      have h3b : 3 ≤ (cornerPixels img).count b :=
        le_trans hc (hbmax c (List.count_pos_iff.mp (by omega)))
      have := count_add_count_le_length (cornerPixels img) hcb
      omega
    subst hcb
    unfold get_corner_background_color
    rw [hb]
    dsimp only
    rw [if_neg (by omega : ¬ (cornerPixels img).count c < 3)]
  · intro c hok
    unfold get_corner_background_color at hok
    rw [hb] at hok
    dsimp only at hok
    by_cases hlt : (cornerPixels img).count b < 3
    · rw [if_pos hlt] at hok
      exact absurd hok (by simp)
    · rw [if_neg hlt] at hok
      have hbc : b = c := by injection hok
      rw [← hbc]
      omega
  · intro hall
    unfold get_corner_background_color
    rw [hb]
    dsimp only
    rw [if_pos (hall b hbmem)]

/-- Witness for C3 at the three corner configurations of the spec's
testable property: 4 matching corners, exactly 3, and only 2. -/
theorem corner_consensus_witness :
    get_corner_background_color imgAllWhite = .ok white ∧
    get_corner_background_color img3Corners = .ok white ∧
    get_corner_background_color img2Corners = .error ChainErr.validation :=
  ⟨(corner_consensus imgAllWhite).1 white (by decide),
   (corner_consensus img3Corners).1 white (by decide),
   (corner_consensus img2Corners).2.2 (by decide)⟩

theorem chDist_eq_zero {a b : Nat} : chDist a b = 0 ↔ a = b := by
  unfold chDist
  omega

theorem trimBBox_unfold (img : Image) (bg : Color) :
    trimBBox img bg =
      match (trimDiff img bg).getbbox with
      | some b => some b
      | none => (trimDiff img bg).convertRGB.getbbox := rfl

theorem trimDiff_pass1_none_iff (img : Image) (bg : Color) :
    (trimDiff img bg).getbbox = none ↔
      ∀ x, x < img.width → ∀ y, y < img.height → (img.px x y).a = bg.a := by
  show getbboxGen _ _ _ = none ↔ _
  rw [getbboxGen_eq_none_iff]
  constructor
  · intro hall x hx y hy
    have := hall x hx y hy
    simp only [trimDiff, difference, Image.convertRGBA, Image.newRGBA, bboxCriterion,
      Color.absDiff, bne_eq_false_iff_eq] at this
    exact chDist_eq_zero.mp this
  · intro hall x hx y hy
    simp only [trimDiff, difference, Image.convertRGBA, Image.newRGBA, bboxCriterion,
      Color.absDiff, bne_eq_false_iff_eq]
    exact chDist_eq_zero.mpr (hall x hx y hy)

theorem trimDiff_pass2_none_iff (img : Image) (bg : Color) :
    (trimDiff img bg).convertRGB.getbbox = none ↔
      ∀ x, x < img.width → ∀ y, y < img.height →
        (img.px x y).r = bg.r ∧ (img.px x y).g = bg.g ∧ (img.px x y).b = bg.b := by
  show getbboxGen _ _ _ = none ↔ _
  rw [getbboxGen_eq_none_iff]
  constructor
  · intro hall x hx y hy
    have := hall x hx y hy
    simp only [trimDiff, difference, Image.convertRGBA, Image.convertRGB, Image.newRGBA,
      bboxCriterion, Color.absDiff, Bool.or_eq_false_iff, bne_eq_false_iff_eq] at this
    exact ⟨chDist_eq_zero.mp this.1.1, chDist_eq_zero.mp this.1.2, chDist_eq_zero.mp this.2⟩
  · intro hall x hx y hy
    obtain ⟨h1, h2, h3⟩ := hall x hx y hy
    simp only [trimDiff, difference, Image.convertRGBA, Image.convertRGB, Image.newRGBA,
      bboxCriterion, Color.absDiff, Bool.or_eq_false_iff, bne_eq_false_iff_eq]
    exact ⟨⟨chDist_eq_zero.mpr h1, chDist_eq_zero.mpr h2⟩, chDist_eq_zero.mpr h3⟩

theorem trimBBox_none_iff (img : Image) (bg : Color) :
    trimBBox img bg = none ↔
      ∀ x, x < img.width → ∀ y, y < img.height → img.px x y = bg := by
  rw [trimBBox_unfold]
  constructor
  · intro h x hx y hy
    rcases h1 : (trimDiff img bg).getbbox with _ | b
    · rw [h1] at h
      dsimp only at h
      have ha := (trimDiff_pass1_none_iff img bg).mp h1 x hx y hy
      have hrgb := (trimDiff_pass2_none_iff img bg).mp h x hx y hy
      exact Color.ext hrgb.1 hrgb.2.1 hrgb.2.2 ha
    · rw [h1] at h
      exact absurd h (by simp)
  · intro hall
    have h1 : (trimDiff img bg).getbbox = none :=
      (trimDiff_pass1_none_iff img bg).mpr fun x hx y hy => by rw [hall x hx y hy]
    rw [h1]
    dsimp only
    exact (trimDiff_pass2_none_iff img bg).mpr fun x hx y hy => by
      rw [hall x hx y hy]
      exact ⟨rfl, rfl, rfl⟩

theorem trim_image_obj_eq (img : Image) (mg : Int) (bg : Color)
    (hbg : get_corner_background_color img = .ok bg) :
    trim_image_obj img mg =
      match trimBBox img bg with
      | none => .ok (img, false)
      | some (L, U, R, B) =>
        if (max 0 (L - mg), max 0 (U - mg), min (img.width : Int) (R + mg),
            min (img.height : Int) (B + mg)) =
            ((0 : Int), (0 : Int), (img.width : Int), (img.height : Int)) then
          .ok (img, false)
        else
          .ok (img.crop (max 0 (L - mg)).toNat (max 0 (U - mg)).toNat
                (min (img.width : Int) (R + mg)).toNat
                (min (img.height : Int) (B + mg)).toNat, true) := by
  unfold trim_image_obj
  rw [show get_corner_background_color img.convertRGBA = .ok bg from hbg]

theorem trim_clamp_cast (L U R B w h m : Nat) :
    ((max 0 ((L : Int) - m), max 0 ((U : Int) - m), min (w : Int) (R + m),
        min (h : Int) (B + m)) = ((0 : Int), (0 : Int), (w : Int), (h : Int))) ↔
      ((L - m, U - m, min w (R + m), min h (B + m)) = (0, 0, w, h)) := by
  simp only [Prod.mk.injEq]
  omega

/-- C1: trim contract.  Whenever corner-mode estimation succeeds with
background `bg` and the margin is a non-negative integer: the difference
bounding box is empty exactly when no pixel differs from the background, and
then trim returns the original image unmodified; when the margin-expanded,
clamped box covers the whole image trim also returns the original
unmodified; in every other case it returns the crop of the original image to
the expanded box — in the image's native color mode — with
`modified = true`. -/
theorem trim_contract (img : Image) (m : Nat) (bg : Color)
    (hbg : get_corner_background_color img = .ok bg) :
    (trimBBox img bg = none ↔
      ∀ x, x < img.width → ∀ y, y < img.height → img.px x y = bg) ∧
    (trimBBox img bg = none → trim_image_obj img (m : Int) = .ok (img, false)) ∧
    (∀ L U R B, trimBBox img bg = some (L, U, R, B) →
      ((L - m, U - m, min img.width (R + m), min img.height (B + m)) =
          (0, 0, img.width, img.height) →
        trim_image_obj img (m : Int) = .ok (img, false)) ∧
      ((L - m, U - m, min img.width (R + m), min img.height (B + m)) ≠
          (0, 0, img.width, img.height) →
        trim_image_obj img (m : Int) =
          .ok (img.crop (L - m) (U - m) (min img.width (R + m))
                (min img.height (B + m)), true) ∧
        (img.crop (L - m) (U - m) (min img.width (R + m))
            (min img.height (B + m))).mode = img.mode)) := by
  refine ⟨trimBBox_none_iff img bg, ?_, ?_⟩
  · intro h
    rw [trim_image_obj_eq img (m : Int) bg hbg, h]
  · intro L U R B hbox
    rw [trim_image_obj_eq img (m : Int) bg hbg, hbox]
    dsimp only
    constructor
    · intro heq
      rw [if_pos ((trim_clamp_cast L U R B img.width img.height m).mpr heq)]
    · intro hne
      rw [if_neg (fun hc => hne ((trim_clamp_cast L U R B img.width img.height m).mp hc))]
      have e1 : (max 0 ((L : Int) - m)).toNat = L - m := by omega
      have e2 : (max 0 ((U : Int) - m)).toNat = U - m := by omega
      have e3 : (min (img.width : Int) ((R : Int) + m)).toNat = min img.width (R + m) := by
        omega
      have e4 : (min (img.height : Int) ((B : Int) + m)).toNat = min img.height (B + m) := by
        omega
      rw [e1, e2, e3, e4]
      exact ⟨rfl, rfl⟩

/-- Witness for C1: a uniformly white image is returned unchanged, and a
white image with a red center is cropped to the expanded box in its native
mode with `modified = true`. -/
theorem trim_contract_witness :
    (trim_image_obj imgWhite2 (7 : Nat) = .ok (imgWhite2, false)) ∧
    (trim_image_obj imgRedCenter ((0 : Nat) : Int) =
      .ok (imgRedCenter.crop 1 1 2 2, true) ∧
      (imgRedCenter.crop 1 1 2 2).mode = imgRedCenter.mode) :=
  ⟨(trim_contract imgWhite2 7 white (by decide)).2.1
      ((trim_contract imgWhite2 7 white (by decide)).1.mpr (by decide)),
   ((trim_contract imgRedCenter 0 white (by decide)).2.2 1 1 2 2 (by decide)).2 (by decide)⟩

theorem parseParts_eq_parseTok : ∀ ps, parseParts ps = parseTok ps := by
  intro ps
  induction ps with
  | nil => rfl
  | cons p rest ih =>
    unfold parseParts parseTok tokenClass
    by_cases h0 : normToken p = []
    · rw [if_pos h0, if_pos h0]
      exact ih
    · rw [if_neg h0, if_neg h0]
      by_cases he : normToken p = ['e']
      · rw [if_pos he, if_pos he]
        dsimp only
        rw [ih]
      · rw [if_neg he, if_neg he]
        by_cases hh : (normToken p).head? = some 't'
        · rw [if_pos hh, if_pos hh]
          by_cases hlen : (normToken p).length > 1
          · rw [if_pos hlen, if_pos hlen]
            rcases hint : pyInt ((normToken p).drop 1) with _ | m
            · dsimp only [Option.map]
              rw [errMsg, if_pos hh]
            · dsimp only [Option.map]
              rw [ih]
          · rw [if_neg hlen, if_neg hlen]
            dsimp only
            rw [ih]
        · rw [if_neg hh, if_neg hh]
          dsimp only
          rw [errMsg, if_neg hh]


theorem parseTok_ok_iff : ∀ (ps : List (List Char)) (ops : List Op),
    parseTok ps = .ok ops ↔
      ((∀ p ∈ ps, tokenClass (normToken p) ≠ none) ∧
        ops = ps.filterMap fun p => (tokenClass (normToken p)).join) := by
  intro ps
  induction ps with
  | nil => intro ops; simp [parseTok, eq_comm]
  | cons p rest ih =>
    intro ops
    unfold parseTok
    rcases hcl : tokenClass (normToken p) with _ | (_ | op)
    · simp [hcl]
    · simp only [List.filterMap_cons, hcl, Option.join]
      rw [ih ops]
      constructor
      · rintro ⟨hv, hval⟩
        refine ⟨?_, hval⟩
        intro q hq
        rcases List.mem_cons.mp hq with h | h
        · rw [h, hcl]; simp
        · exact hv q h
      · rintro ⟨hv, hval⟩
        exact ⟨fun q hq => hv q (List.mem_cons_of_mem _ hq), hval⟩
    · simp only [List.filterMap_cons, hcl, Option.join]
      constructor
      · intro hmap
        rcases hrest : parseTok rest with e | ops2
        · rw [hrest] at hmap
          exact absurd hmap (by simp [Except.map])
        · rw [hrest] at hmap
          have hops : ops = op :: ops2 := by
            simp only [Except.map] at hmap
            injection hmap with h
            exact h.symm
          obtain ⟨hv, hval⟩ := (ih ops2).mp hrest
          refine ⟨?_, ?_⟩
          · intro q hq
            rcases List.mem_cons.mp hq with h | h
            · rw [h, hcl]; simp
            · exact hv q h
          · rw [hops, hval]
            rfl
      · rintro ⟨hv, hval⟩
        have hrest := (ih (rest.filterMap fun q => (tokenClass (normToken q)).join)).mpr
          ⟨fun q hq => hv q (List.mem_cons_of_mem _ hq), rfl⟩
        rw [hrest]
        simp [Except.map, hval]

/-- C4 (amended): parsing characterization plus the concrete chain of the
claim. -/
theorem parse_operations_spec :
    (∀ s ops, parse_operations s = .ok ops ↔
      ((∀ p ∈ splitComma s.data, tokenClass (normToken p) ≠ none) ∧
        ops = (splitComma s.data).filterMap fun p => (tokenClass (normToken p)).join)) ∧
    (∀ p ps, tokenClass (normToken p) = none → parseParts (p :: ps) = .error (errMsg p)) ∧
    parse_operations "e,t48" = .ok [Op.e, Op.t 48] := by
  refine ⟨?_, ?_, by decide⟩
  · intro s ops
    unfold parse_operations
    rw [parseParts_eq_parseTok]
    exact parseTok_ok_iff _ ops
  · intro p ps hcl
    rw [parseParts_eq_parseTok]
    unfold parseTok
    rw [hcl]

theorem parse_operations_spec_witness :
    parse_operations "t5, e" = .ok [Op.t 5, Op.e] ∧
    parseParts [['x']] = .error "Unknown operation: x" :=
  ⟨(parse_operations_spec.1 "t5, e" [Op.t 5, Op.e]).mpr (by decide),
   parse_operations_spec.2.1 ['x'] [] (by decide)⟩

/-- Counterexample to C4 as stated: `t0` parses successfully to a trim
margin 0, which is not positive, and `t-5` — not a `t` followed by digits —
parses successfully to margin `-5` instead of being a parse error. -/
theorem parse_operations_counterexample :
    parse_operations "t0" = .ok [Op.t 0] ∧
    parse_operations "t-5" = .ok [Op.t (-5)] := by decide

/-- C10: a spec whose tokens are all empty (after whitespace trimming)
parses to the empty chain, and the empty chain leaves any image unchanged
with `modified = false`: the file is reported as no-change and no output is
written. -/
theorem empty_chain_noop :
    (∀ s, (∀ p ∈ splitComma s.data, normToken p = []) → parse_operations s = .ok []) ∧
    parse_operations "" = .ok [] ∧
    parse_operations " , ," = .ok [] ∧
    (∀ img, runOps [] img false = .ok (img, false)) ∧
    (∀ img rf ss, _process_single_file (.ok img) [] rf ss = (FileStatus.noChange, none)) := by
  refine ⟨?_, by decide, by decide, fun img => rfl, fun img rf ss => rfl⟩
  intro s hall
  unfold parse_operations
  rw [parseParts_eq_parseTok]
  refine (parseTok_ok_iff _ _).mpr ⟨?_, ?_⟩
  · intro p hp
    rw [hall p hp]
    simp [tokenClass]
  · symm
    rw [List.filterMap_eq_nil_iff]
    intro p hp
    rw [hall p hp]
    simp [tokenClass, Option.join]

theorem empty_chain_noop_witness :
    parse_operations "  ,, ," = .ok [] ∧
    _process_single_file (.ok imgRedCenter) [] true false = (FileStatus.noChange, none) :=
  ⟨empty_chain_noop.1 "  ,, ," (by decide),
   empty_chain_noop.2.2.2.2 imgRedCenter true false⟩

theorem images_identical_of_pixelIdentical {a b : Image} (h : pixelIdentical a b) :
    _images_are_identical a b = true := by
  obtain ⟨hw, hh, hm, hpx⟩ := h
  unfold _images_are_identical
  rw [if_pos ⟨hw, hh, hm⟩]
  rw [Option.isNone_iff_eq_none]
  show getbboxGen _ _ _ = none
  rw [getbboxGen_eq_none_iff]
  intro x hx y hy
  have hpxe := hpx x hx y hy
  show bboxCriterion (difference a b).mode ((a.px x y).absDiff (b.px x y)) = false
  rw [← hpxe]
  have habs : (a.px x y).absDiff (a.px x y) = ⟨0, 0, 0, 0⟩ := by
    simp [Color.absDiff, chDist]
  rw [habs]
  cases (difference a b).mode <;> rfl

theorem runOps_exec {ops : List Op} :
    ∀ {img fin : Image} {m0 m : Bool}, runOps ops img m0 = .ok (fin, m) →
      ∃ flags, ChainExec img ops fin flags ∧ m = (m0 || flags.any id) := by
  induction ops with
  | nil =>
    intro img fin m0 m h
    unfold runOps at h
    injection h with h1
    injection h1 with ha hb
    subst ha
    subst hb
    exact ⟨[], ChainExec.nil img, by simp⟩
  | cons op rest ih =>
    intro img fin m0 m h
    unfold runOps at h
    rcases happ : applyStep op img with e | ⟨i, f⟩
    · rw [happ] at h
      exact absurd h (by simp)
    · rw [happ] at h
      dsimp only at h
      obtain ⟨flags, hexec, hflag⟩ := ih h
      cases op with
      | e =>
        unfold applyStep at happ
        dsimp only at happ
        rcases hext : extend_image_obj img with _ | j
        · rw [hext] at happ
          exact absurd happ (by simp)
        · rw [hext] at happ
          injection happ with hij
          injection hij with ha hb
          subst ha
          subst hb
          refine ⟨true :: flags, ChainExec.extendStep hext hexec, ?_⟩
          rw [hflag]
          simp [Bool.or_assoc]
      | t mg =>
        refine ⟨f :: flags, ChainExec.trimStep happ hexec, ?_⟩
        rw [hflag]
        simp [Bool.or_assoc]

/-- C5: chain execution.  A successful run of the executor is exactly a
left-to-right execution of the chain (`ChainExec`), the accumulated
`modified` flag is the logical OR of the per-step flags, and when
`skip_same` is set and the final image is pixel-identical (same dimensions,
same mode, zero differing pixels) to the starting image, the file is
reported unmodified regardless of per-step flags. -/
theorem chain_execution (ops : List Op) (img fin : Image) (m : Bool) :
    (runOps ops img false = .ok (fin, m) →
      ∃ flags, ChainExec img ops fin flags ∧ m = flags.any id) ∧
    (runOps ops img false = .ok (fin, m) → pixelIdentical img fin →
      ∀ rf, _process_single_file (.ok img) ops rf true = (FileStatus.noChange, none)) := by
  constructor
  · intro h
    obtain ⟨flags, hexec, hflag⟩ := runOps_exec h
    exact ⟨flags, hexec, by simpa using hflag⟩
  · intro h hid rf
    unfold _process_single_file
    dsimp only
    rw [h]
    dsimp only
    rw [images_identical_of_pixelIdentical hid]
    cases m <;> rfl

/-- Witness for C5: the chain `e,t1` on a 3×3 white image with a red center
extends it to 9×9 and trims it back to the original pixels; with
`skip_same` the run is reported as no change. -/
theorem chain_execution_witness :
    _process_single_file (.ok imgRedCenter) [Op.e, Op.t 1] false true =
      (FileStatus.noChange, none) :=
  (chain_execution [Op.e, Op.t 1] imgRedCenter chainFin true).2 rfl (by decide) false

theorem runBatch_go (ops : List Op) (rf ss : Bool) :
    ∀ (files : List (Except ChainErr Image)) (acc : Nat × Nat × Nat),
      files.foldl
        (fun acc f =>
          match (_process_single_file f ops rf ss).1 with
          | FileStatus.processed => (acc.1 + 1, acc.2.1, acc.2.2)
          | FileStatus.noChange => (acc.1, acc.2.1 + 1, acc.2.2)
          | FileStatus.skipped => (acc.1, acc.2.1, acc.2.2 + 1)) acc =
      (acc.1 + ((files.map fun f => (_process_single_file f ops rf ss).1).count
          FileStatus.processed),
       acc.2.1 + ((files.map fun f => (_process_single_file f ops rf ss).1).count
          FileStatus.noChange),
       acc.2.2 + ((files.map fun f => (_process_single_file f ops rf ss).1).count
          FileStatus.skipped)) := by
  intro files
  induction files with
  | nil => intro acc; simp
  | cons f fs ih =>
    intro acc
    rw [List.foldl_cons, ih]
    rcases hst : (_process_single_file f ops rf ss).1 <;>
      simp [List.count_cons, hst, Prod.ext_iff] <;> omega

/-- C9: step-failure atomicity.  A failing step makes the whole chain fail
with that error — the remaining steps are never executed and no partial
image is produced; the file is then recorded as skipped with no output
written; and the batch counters are exactly the per-file statuses counted
independently, so one file's failure never affects the processing of the
others. -/
theorem step_failure_atomicity :
    (∀ op ops img m e, applyStep op img = .error e →
      runOps (op :: ops) img m = .error e) ∧
    (∀ ops img e rf ss, runOps ops img false = .error e →
      _process_single_file (.ok img) ops rf ss = (FileStatus.skipped, none)) ∧
    (∀ files ops rf ss,
      runBatch files ops rf ss =
        (((files.map fun f => (_process_single_file f ops rf ss).1).count
            FileStatus.processed),
         ((files.map fun f => (_process_single_file f ops rf ss).1).count
            FileStatus.noChange),
         ((files.map fun f => (_process_single_file f ops rf ss).1).count
            FileStatus.skipped))) := by
  refine ⟨?_, ?_, ?_⟩
  · intro op ops img m e h
    unfold runOps
    rw [h]
  · intro ops img e rf ss h
    unfold _process_single_file
    dsimp only
    rw [h]
  · intro files ops rf ss
    unfold runBatch
    rw [runBatch_go]
    simp

/-- Witness for C9: a chain whose first step is a trim with inconsistent
corners fails immediately, the file is skipped, and a batch containing that
file and a good one still processes the good one. -/
theorem step_failure_atomicity_witness :
    runOps [Op.t 0, Op.e] img2Corners false = .error ChainErr.validation ∧
    _process_single_file (.ok img2Corners) [Op.t 0, Op.e] false true =
      (FileStatus.skipped, none) ∧
    runBatch [.ok img2Corners, .ok imgRedCenter] [Op.t 0] false true = (1, 0, 1) :=
  ⟨step_failure_atomicity.1 (Op.t 0) [Op.e] img2Corners false ChainErr.validation rfl,
   step_failure_atomicity.2.1 [Op.t 0, Op.e] img2Corners ChainErr.validation false true
     (step_failure_atomicity.1 (Op.t 0) [Op.e] img2Corners false ChainErr.validation rfl),
   by rw [step_failure_atomicity.2.2]; decide⟩

/-- C7 (amended): extend restores the alpha-less native layout only for RGB
inputs; every other input mode — including the alpha-less `L` and `P` — is
returned as RGBA. -/
theorem extend_mode_restoration (img : Image) (ext : Image)
    (h : extend_image_obj img = some ext) :
    ext.mode = if img.mode = Mode.RGB then Mode.RGB else Mode.RGBA := by
  unfold extend_image_obj at h
  rcases hbg : get_edge_background_color img with _ | bg
  · rw [hbg] at h
    exact absurd h (by simp)
  · rw [hbg] at h
    dsimp only at h
    by_cases hrgb : img.mode = Mode.RGB
    · rw [if_pos hrgb] at h ⊢
      rw [← Option.some.inj h]
      rfl
    · rw [if_neg hrgb] at h ⊢
      rw [← Option.some.inj h]
      rfl

/-- Witness for C7: the RGB input is restored to RGB. -/
theorem extend_mode_restoration_witness :
    extRGB.mode = if imgRGB.mode = Mode.RGB then Mode.RGB else Mode.RGBA :=
  extend_mode_restoration imgRGB extRGB rfl

/-- Counterexample to C7 as stated: a single-channel (`L`-mode) input — a
native mode with no alpha channel — is returned as RGBA, not converted back
to its channel layout. -/
theorem extend_mode_counterexample :
    imgGray.mode = Mode.L ∧
    (extend_image_obj imgGray).map Image.mode = some Mode.RGBA := by decide


theorem extend_eq (img : Image) (bg : Color)
    (hbg : get_edge_background_color img = some bg) :
    extend_image_obj img =
      some (if img.mode = Mode.RGB then (extendPasted img bg).convertRGB
            else extendPasted img bg) := by
  unfold extend_image_obj
  rw [hbg]

/-- C2 (amended): extend always succeeds on a non-empty image, never
no-ops, and produces a `3w × 3h` canvas filled with the edge-mode background
color, with the original pasted at pixel region `[w,2w) × [h,2h)`.  For
inputs whose mode is not RGBA the pasted region holds the original content
unchanged (RGB results are converted back, so their alpha is the constant
255); for RGBA inputs the region holds the original alpha-composited over
the background through Pillow's mask blend. -/
theorem extend_size_law (img : Image) (hw : 1 ≤ img.width) (_hh : 1 ≤ img.height) :
    ∃ bg ext, get_edge_background_color img = some bg ∧
      extend_image_obj img = some ext ∧
      ext.width = 3 * img.width ∧ ext.height = 3 * img.height ∧
      runOps [Op.e] img false = .ok (ext, true) ∧
      (∀ x, x < 3 * img.width → ∀ y, y < 3 * img.height →
        ¬ (img.width ≤ x ∧ x < 2 * img.width ∧ img.height ≤ y ∧ y < 2 * img.height) →
        ext.px x y = (if img.mode = Mode.RGB then { bg with a := 255 } else bg)) ∧
      (img.mode ≠ Mode.RGBA →
        ∀ x, x < img.width → ∀ y, y < img.height →
          ext.px (img.width + x) (img.height + y) =
            (if img.mode = Mode.RGB then { img.px x y with a := 255 } else img.px x y)) ∧
      (img.mode = Mode.RGBA →
        ∀ x, x < img.width → ∀ y, y < img.height →
          ext.px (img.width + x) (img.height + y) =
            blendColor bg (img.px x y) (img.px x y).a) := by
  have hmem : ((0 : Nat), (0 : Nat)) ∈ edgeCoords img.width img.height := by
    unfold edgeCoords
    refine List.mem_append_left _ ?_
    exact List.mem_flatMap.mpr ⟨0, List.mem_range.mpr hw, by simp⟩
  have hne : edgeColors img ≠ [] :=
    List.ne_nil_of_mem (List.mem_map_of_mem _ hmem)
  obtain ⟨b, hb, hmemb, hmax⟩ := mostCommon1_spec hne
  have hbg : get_edge_background_color img = some b := by
    unfold get_edge_background_color
    rw [hb]
    rfl
  refine ⟨b, _, hbg, extend_eq img b hbg, ?_, ?_, ?_, ?_, ?_, ?_⟩
  · by_cases hrgb : img.mode = Mode.RGB <;>
      simp [hrgb, Image.convertRGB, extendPasted, Nat.mul_comm]
  · by_cases hrgb : img.mode = Mode.RGB <;>
      simp [hrgb, Image.convertRGB, extendPasted, Nat.mul_comm]
  · unfold runOps applyStep
    dsimp only
    rw [extend_eq img b hbg]
    rfl
  · intro x hx3 y hy3 hout
    have hguard : ¬ (img.width ≤ x ∧ x < img.width + img.width ∧
        img.height ≤ y ∧ y < img.height + img.height) := by omega
    by_cases hrgb : img.mode = Mode.RGB
    · simp only [if_pos hrgb, Image.convertRGB, extendPasted]
      rw [if_neg hguard]
    · simp only [if_neg hrgb, extendPasted]
      rw [if_neg hguard]
  · intro hnotRGBA x hx y hy
    have hguard : img.width ≤ img.width + x ∧ img.width + x < img.width + img.width ∧
        img.height ≤ img.height + y ∧ img.height + y < img.height + img.height := by omega
    by_cases hrgb : img.mode = Mode.RGB
    · simp only [if_pos hrgb, Image.convertRGB, extendPasted]
      rw [if_pos hguard]
      rw [if_neg (by rw [hrgb]; simp : ¬ img.mode = Mode.RGBA)]
      rw [Nat.add_sub_cancel_left, Nat.add_sub_cancel_left]
    · simp only [if_neg hrgb, extendPasted]
      rw [if_pos hguard]
      rw [if_neg hnotRGBA]
      rw [Nat.add_sub_cancel_left, Nat.add_sub_cancel_left]
  · intro hRGBA x hx y hy
    have hguard : img.width ≤ img.width + x ∧ img.width + x < img.width + img.width ∧
        img.height ≤ img.height + y ∧ img.height + y < img.height + img.height := by omega
    have hrgb : ¬ img.mode = Mode.RGB := by rw [hRGBA]; simp
    simp only [if_neg hrgb, extendPasted]
    rw [if_pos hguard]
    rw [if_pos hRGBA]
    rw [Nat.add_sub_cancel_left, Nat.add_sub_cancel_left]


/-- Witness for C2 at a 1×1 RGB white image. -/
theorem extend_size_law_witness :
    ∃ bg ext, get_edge_background_color imgRGB = some bg ∧
      extend_image_obj imgRGB = some ext ∧
      ext.width = 3 * imgRGB.width ∧ ext.height = 3 * imgRGB.height ∧
      runOps [Op.e] imgRGB false = .ok (ext, true) ∧
      (∀ x, x < 3 * imgRGB.width → ∀ y, y < 3 * imgRGB.height →
        ¬ (imgRGB.width ≤ x ∧ x < 2 * imgRGB.width ∧
            imgRGB.height ≤ y ∧ y < 2 * imgRGB.height) →
        ext.px x y = (if imgRGB.mode = Mode.RGB then { bg with a := 255 } else bg)) ∧
      (imgRGB.mode ≠ Mode.RGBA →
        ∀ x, x < imgRGB.width → ∀ y, y < imgRGB.height →
          ext.px (imgRGB.width + x) (imgRGB.height + y) =
            (if imgRGB.mode = Mode.RGB then { imgRGB.px x y with a := 255 }
             else imgRGB.px x y)) ∧
      (imgRGB.mode = Mode.RGBA →
        ∀ x, x < imgRGB.width → ∀ y, y < imgRGB.height →
          ext.px (imgRGB.width + x) (imgRGB.height + y) =
            blendColor bg (imgRGB.px x y) (imgRGB.px x y).a) :=
  extend_size_law imgRGB (by decide) (by decide)

/-- Counterexample to C2 as stated: for an RGBA input whose center pixel is
fully transparent red over an opaque white border, the pasted center pixel
of the extended image is the background white, not the original pixel — the
original content does not occupy the center region unchanged. -/
theorem extend_size_law_counterexample :
    (extend_image_obj imgClearCenter).map (fun i => i.px 4 4) = some white ∧
    imgClearCenter.px 1 1 = clearRed ∧ white ≠ clearRed := by decide


theorem count_edge_rows (w h a b : Nat) (hh : 2 ≤ h) :
    ((List.range w).flatMap fun x => [(x, 0), (x, h - 1)]).count (a, b) =
      if a < w ∧ (b = 0 ∨ b = h - 1) then 1 else 0 := by
  induction w with
  | zero => simp
  | succ n ih =>
    rw [List.range_succ, List.flatMap_append, List.count_append, ih]
    simp only [List.flatMap_cons, List.flatMap_nil, List.append_nil, List.count_cons,
      List.count_nil, beq_iff_eq, Prod.mk.injEq]
    split_ifs <;> omega

theorem count_edge_cols (w a b : Nat) (hw : 2 ≤ w) :
    ∀ s n, ((List.range' s n).flatMap fun y => [(0, y), (w - 1, y)]).count (a, b) =
      if (s ≤ b ∧ b < s + n) ∧ (a = 0 ∨ a = w - 1) then 1 else 0 := by
  intro s n
  induction n generalizing s with
  | zero =>
    rw [show List.range' s 0 = [] from rfl]
    simp only [List.flatMap_nil, List.count_nil]
    split_ifs <;> omega
  | succ n ih =>
    rw [List.range'_succ, List.flatMap_cons, List.count_append, ih]
    simp only [List.count_cons, List.count_nil, beq_iff_eq, Prod.mk.injEq]
    split_ifs <;> omega

/-- C8 (amended): for every image with both dimensions at least 2, edge-mode
estimation samples (after RGBA normalization) exactly the pixels of the four
border lines, each border coordinate counted exactly once; and for any
image, the returned color is a sampled color of maximal count (most frequent
by exact match). -/
theorem edge_sampling (img : Image) :
    (2 ≤ img.width → 2 ≤ img.height →
      ∀ q : Nat × Nat, (edgeCoords img.width img.height).count q =
        if q.1 < img.width ∧ q.2 < img.height ∧
            (q.1 = 0 ∨ q.1 = img.width - 1 ∨ q.2 = 0 ∨ q.2 = img.height - 1)
        then 1 else 0) ∧
    (∀ c, get_edge_background_color img = some c →
      c ∈ edgeColors img ∧
        ∀ d ∈ edgeColors img, (edgeColors img).count d ≤ (edgeColors img).count c) := by
  constructor
  · intro hw hh q
    obtain ⟨a, b⟩ := q
    unfold edgeCoords
    rw [List.count_append, count_edge_rows _ _ _ _ hh, count_edge_cols _ _ _ hw _ _]
    split_ifs <;> omega
  · intro c hc
    by_cases hne : edgeColors img = []
    · unfold get_edge_background_color mostCommon1 at hc
      rw [hne] at hc
      exact absurd hc (by simp [bestOf])
    · obtain ⟨bb, hbb, hmem, hmax⟩ := mostCommon1_spec hne
      unfold get_edge_background_color at hc
      rw [hbb] at hc
      have hbc : bb = c := Option.some.inj hc
      subst hbc
      exact ⟨hmem, hmax⟩

/-- Witness for C8 at a 2×2 image: every coordinate is a border coordinate
counted once, and the returned color is the most frequent sample. -/
theorem edge_sampling_witness :
    ((edgeCoords imgWhite2.width imgWhite2.height).count (0, 1) =
      if (0 : Nat) < imgWhite2.width ∧ (1 : Nat) < imgWhite2.height ∧
          ((0 : Nat) = 0 ∨ (0 : Nat) = imgWhite2.width - 1 ∨ (1 : Nat) = 0 ∨
            (1 : Nat) = imgWhite2.height - 1) then 1 else 0) ∧
    (white ∈ edgeColors imgWhite2 ∧
      ∀ d ∈ edgeColors imgWhite2,
        (edgeColors imgWhite2).count d ≤ (edgeColors imgWhite2).count white) :=
  ⟨(edge_sampling imgWhite2).1 (by decide) (by decide) (0, 1),
   (edge_sampling imgWhite2).2 white (by decide)⟩

/-- Counterexample to C8 as stated: in a 1×1 image the single border pixel
is sampled twice, not once. -/
theorem edge_sampling_counterexample :
    imgTiny.width = 1 ∧ imgTiny.height = 1 ∧
    (edgeCoords imgTiny.width imgTiny.height).count (0, 0) = 2 := by decide


/-- Cropping to a window that contains the bounding box shifts the bounding
box by the window offset. -/
theorem getbboxGen_crop {w h l u r b : Nat} {p : Nat → Nat → Bool} {L U R B : Nat}
    (hbox : getbboxGen w h p = some (L, U, R, B))
    (hl : l ≤ L) (hu : u ≤ U) (hR : R ≤ r) (hB : B ≤ b) (hr : r ≤ w) (hb : b ≤ h) :
    getbboxGen (r - l) (b - u) (fun x y => p (l + x) (u + y)) =
      some (L - l, U - u, R - l, B - u) := by
  obtain ⟨hIn, ⟨yL, hyL⟩, ⟨yR, hyR⟩, ⟨xU, hxU⟩, ⟨xB, hxB⟩, hR1, hB1⟩ := getbboxGen_spec hbox
  have hLR : L < R := (hIn L yL hyL).2.1
  have hUB : U < B := (hIn xU U hxU).2.2.2
  -- membership translation
  have hfwd : ∀ x y, (x, y) ∈ diffSet (r - l) (b - u) (fun x y => p (l + x) (u + y)) →
      (l + x, u + y) ∈ diffSet w h p := by
    intro x y hxy
    obtain ⟨hx, hy, hp⟩ := mem_diffSet.mp hxy
    exact mem_diffSet.mpr ⟨by omega, by omega, hp⟩
  have hbwd : ∀ x y, (x, y) ∈ diffSet w h p →
      (x - l, y - u) ∈ diffSet (r - l) (b - u) (fun x y => p (l + x) (u + y)) := by
    intro x y hxy
    obtain ⟨hx, hy, hp⟩ := mem_diffSet.mp hxy
    obtain ⟨hLx, hxR, hUy, hyB⟩ := hIn x y hxy
    refine mem_diffSet.mpr ⟨by omega, by omega, ?_⟩
    rw [show l + (x - l) = x by omega, show u + (y - u) = y by omega]
    exact hp
  have hs2 : (diffSet (r - l) (b - u) (fun x y => p (l + x) (u + y))).Nonempty :=
    ⟨(L - l, yL - u), hbwd L yL hyL⟩
  rw [getbboxGen_of_nonempty hs2]
  have hminx : ((diffSet (r - l) (b - u) (fun x y => p (l + x) (u + y))).image
      Prod.fst).min' (hs2.image _) = L - l := by
    apply le_antisymm
    · exact Finset.min'_le _ _ (Finset.mem_image_of_mem Prod.fst (hbwd L yL hyL))
    · apply Finset.le_min'
      intro z hz
      obtain ⟨⟨x, y⟩, hxy, hfst⟩ := Finset.mem_image.mp hz
      have := (hIn (l + x) (u + y) (hfwd x y hxy)).1
      omega
  have hminy : ((diffSet (r - l) (b - u) (fun x y => p (l + x) (u + y))).image
      Prod.snd).min' (hs2.image _) = U - u := by
    apply le_antisymm
    · exact Finset.min'_le _ _ (Finset.mem_image_of_mem Prod.snd (hbwd xU U hxU))
    · apply Finset.le_min'
      intro z hz
      obtain ⟨⟨x, y⟩, hxy, hsnd⟩ := Finset.mem_image.mp hz
      have := (hIn (l + x) (u + y) (hfwd x y hxy)).2.2.1
      omega
  have hmaxx : ((diffSet (r - l) (b - u) (fun x y => p (l + x) (u + y))).image
      Prod.fst).max' (hs2.image _) = R - 1 - l := by
    apply le_antisymm
    · apply Finset.max'_le
      intro z hz
      obtain ⟨⟨x, y⟩, hxy, hfst⟩ := Finset.mem_image.mp hz
      have := (hIn (l + x) (u + y) (hfwd x y hxy)).2.1
      omega
    · exact Finset.le_max' _ _ (Finset.mem_image_of_mem Prod.fst (hbwd (R - 1) yR hyR))
  have hmaxy : ((diffSet (r - l) (b - u) (fun x y => p (l + x) (u + y))).image
      Prod.snd).max' (hs2.image _) = B - 1 - u := by
    apply le_antisymm
    · apply Finset.max'_le
      intro z hz
      obtain ⟨⟨x, y⟩, hxy, hsnd⟩ := Finset.mem_image.mp hz
      have := (hIn (l + x) (u + y) (hfwd x y hxy)).2.2.2
      omega
    · exact Finset.le_max' _ _ (Finset.mem_image_of_mem Prod.snd (hbwd xB (B - 1) hxB))
  rw [hminx, hminy, hmaxx, hmaxy]
  have hrw1 : R - 1 - l + 1 = R - l := by omega
  have hrw2 : B - 1 - u + 1 = B - u := by omega
  rw [hrw1, hrw2]

/-- Cropping an image with no satisfying pixel leaves none. -/
theorem getbboxGen_crop_none {w h l u r b : Nat} {p : Nat → Nat → Bool}
    (hnone : getbboxGen w h p = none) (hr : r ≤ w) (hb : b ≤ h) :
    getbboxGen (r - l) (b - u) (fun x y => p (l + x) (u + y)) = none := by
  rw [getbboxGen_eq_none_iff] at hnone ⊢
  intro x hx y hy
  exact hnone (l + x) (by omega) (u + y) (by omega)


theorem getbboxGen_bounds {w h : Nat} {p : Nat → Nat → Bool} {L U R B : Nat}
    (hbox : getbboxGen w h p = some (L, U, R, B)) :
    L < R ∧ U < B ∧ R ≤ w ∧ B ≤ h := by
  obtain ⟨hIn, ⟨yL, hyL⟩, ⟨yR, hyR⟩, ⟨xU, hxU⟩, ⟨xB, hxB⟩, hR1, hB1⟩ := getbboxGen_spec hbox
  have h1 := (hIn L yL hyL).2.1
  have h2 := (hIn xU U hxU).2.2.2
  have h3 := (mem_diffSet.mp hyR).1
  have h4 := (mem_diffSet.mp hxB).2.1
  omega

/-- C6 (amended): if trimming cropped the image and corner-mode estimation
of the cropped image yields the same background color as the original's,
then re-trimming with the same margin returns the cropped image with
`modified = false`.  (Without the same-background proviso the re-trim can
fail or crop again — see the counterexample.) -/
theorem trim_retrim (img img2 : Image) (m : Nat) (bg : Color)
    (h0 : get_corner_background_color img = .ok bg)
    (h1 : trim_image_obj img (m : Int) = .ok (img2, true))
    (h2 : get_corner_background_color img2 = .ok bg) :
    trim_image_obj img2 (m : Int) = .ok (img2, false) := by
  rw [trim_image_obj_eq img (m : Int) bg h0] at h1
  rcases hbox : trimBBox img bg with _ | ⟨L, U, R, B⟩
  · rw [hbox] at h1
    simp at h1
  · rw [hbox] at h1
    dsimp only at h1
    have e1 : (max 0 ((L : Int) - m)).toNat = L - m := by omega
    have e2 : (max 0 ((U : Int) - m)).toNat = U - m := by omega
    have e3 : (min (img.width : Int) ((R : Int) + m)).toNat = min img.width (R + m) := by
      omega
    have e4 : (min (img.height : Int) ((B : Int) + m)).toNat = min img.height (B + m) := by
      omega
    by_cases hful : (max 0 ((L : Int) - m), max 0 ((U : Int) - m),
        min (img.width : Int) ((R : Int) + m), min (img.height : Int) ((B : Int) + m)) =
        ((0 : Int), (0 : Int), (img.width : Int), (img.height : Int))
    · rw [if_pos hful] at h1
      simp at h1
    · rw [if_neg hful] at h1
      rw [e1, e2, e3, e4] at h1
      injection h1 with h1a
      injection h1a with hA hB
      subst hA
      -- bounding box of the cropped image
      rw [trimBBox_unfold] at hbox
      have htb : trimBBox
          (img.crop (L - m) (U - m) (min img.width (R + m)) (min img.height (B + m))) bg =
          some (L - (L - m), U - (U - m), R - (L - m), B - (U - m)) := by
        rcases hp1 : (trimDiff img bg).getbbox with _ | bx
        · -- first pass empty on the original: also empty on the crop
          rw [hp1] at hbox
          dsimp only at hbox
          have hp2 : getbboxGen img.width img.height
              (fun x y => bboxCriterion Mode.RGB
                { (img.px x y).absDiff bg with a := 255 }) = some (L, U, R, B) := hbox
          obtain ⟨hLR, hUB, hRw, hBh⟩ := getbboxGen_bounds hp2
          have hp1g : getbboxGen img.width img.height
              (fun x y => bboxCriterion Mode.RGBA ((img.px x y).absDiff bg)) = none := hp1
          have hc1 : (trimDiff
              (img.crop (L - m) (U - m) (min img.width (R + m)) (min img.height (B + m)))
              bg).getbbox = none :=
            getbboxGen_crop_none hp1g (by omega) (by omega)
          have hc2 : (trimDiff
              (img.crop (L - m) (U - m) (min img.width (R + m)) (min img.height (B + m)))
              bg).convertRGB.getbbox =
              some (L - (L - m), U - (U - m), R - (L - m), B - (U - m)) :=
            getbboxGen_crop hp2 (by omega) (by omega) (by omega) (by omega) (by omega)
              (by omega)
          rw [trimBBox_unfold, hc1]
          exact hc2
        · -- first pass found the box
          rw [hp1] at hbox
          dsimp only at hbox
          have hbx : bx = (L, U, R, B) := Option.some.inj hbox
          subst hbx
          have hp1g : getbboxGen img.width img.height
              (fun x y => bboxCriterion Mode.RGBA ((img.px x y).absDiff bg)) =
              some (L, U, R, B) := hp1
          obtain ⟨hLR, hUB, hRw, hBh⟩ := getbboxGen_bounds hp1g
          have hc1 : (trimDiff
              (img.crop (L - m) (U - m) (min img.width (R + m)) (min img.height (B + m)))
              bg).getbbox =
              some (L - (L - m), U - (U - m), R - (L - m), B - (U - m)) :=
            getbboxGen_crop hp1g (by omega) (by omega) (by omega) (by omega) (by omega)
              (by omega)
          rw [trimBBox_unfold, hc1]
      -- the re-trim sees a box whose margin expansion covers the whole crop
      have hbounds : L < R ∧ U < B ∧ R ≤ img.width ∧ B ≤ img.height := by
        rcases hp1 : (trimDiff img bg).getbbox with _ | bx
        · rw [hp1] at hbox
          dsimp only at hbox
          exact getbboxGen_bounds (show getbboxGen img.width img.height
            (fun x y => bboxCriterion Mode.RGB
              { (img.px x y).absDiff bg with a := 255 }) = some (L, U, R, B) from hbox)
        · rw [hp1] at hbox
          dsimp only at hbox
          have hbx : bx = (L, U, R, B) := Option.some.inj hbox
          subst hbx
          exact getbboxGen_bounds (show getbboxGen img.width img.height
            (fun x y => bboxCriterion Mode.RGBA ((img.px x y).absDiff bg)) =
              some (L, U, R, B) from hp1)
      obtain ⟨hLR, hUB, hRw, hBh⟩ := hbounds
      rw [trim_image_obj_eq _ (m : Int) bg h2, htb]
      dsimp only
      rw [if_pos]
      rw [trim_clamp_cast]
      have hw2 : (img.crop (L - m) (U - m) (min img.width (R + m))
          (min img.height (B + m))).width = min img.width (R + m) - (L - m) := rfl
      have hh2 : (img.crop (L - m) (U - m) (min img.width (R + m))
          (min img.height (B + m))).height = min img.height (B + m) - (U - m) := rfl
      rw [hw2, hh2]
      simp only [Prod.mk.injEq]
      omega


/-- Witness for C6: a 5×5 white image with a red center, trimmed with
margin 1, re-trims to `modified = false` (the crop's corners are still the
original background). -/
theorem trim_retrim_witness :
    trim_image_obj imgRed5Trimmed ((1 : Nat) : Int) = .ok (imgRed5Trimmed, false) :=
  trim_retrim imgRed5 imgRed5Trimmed 1 white (by decide) rfl (by decide)

/-- Counterexample to C6 as stated: trimming `imgDiag` (margin 0) reports
`modified = true`, but re-trimming the result raises `ValidationError`
(its corners no longer agree); trimming `imgRing` (margin 0) reports
`modified = true`, and re-trimming the result crops again with
`modified = true` (its corner consensus switched to the ring color). -/
theorem trim_retrim_counterexample :
    (trim_image_obj imgDiag 0).map Prod.snd = .ok true ∧
    (trim_image_obj imgDiagTrimmed 0).map Prod.snd = .error ChainErr.validation ∧
    (trim_image_obj imgRing 0).map Prod.snd = .ok true ∧
    (trim_image_obj imgRingTrimmed 0).map Prod.snd = .ok true := by decide
